import Mathlib

/-!
Verification of the phrase-segmentation conversion engine
(`src/conversion/chewing_conversion.rs`).

The engine is shallowly embedded: syllables and characters are opaque values
modelled as `Nat`; the dictionary is a pure function from syllable sequences
to lists of `Phrase`; `usize`/`u32` arithmetic that never overflows on the
inputs considered is modelled by `Nat`, and the `i32` score arithmetic by
`Int`.  Panics (`expect`) that are unreachable under the engine's own guards
are modelled by total functions; `find_all_paths`, whose recursion is
unbounded when the dictionary returns phrases for the empty syllable list,
is modelled with explicit fuel.  The per-call memoization `Graph` caches the
pure function `find_best_phrase`, so it is observationally transparent and
is not modelled.
-/

namespace Chewing

/-- A dictionary phrase: its text (one opaque character code per syllable)
and a non-negative frequency.  Mirrors `dictionary::Phrase`. -/
structure Phrase where
  chars : List Nat
  freq : Nat
deriving DecidableEq, Repr

/-- Public result interval, mirrors `conversion::Interval`:
half-open span `[start, end_)` with its chosen character string. -/
structure Interval where
  start : Nat
  end_ : Nat
  phrase : List Nat
deriving DecidableEq, Repr

/-- Input to a conversion, mirrors `conversion::ChineseSequence`.
A break position is the `usize` wrapped by `Break`. -/
structure ChineseSequence where
  syllables : List Nat
  selections : List Interval
  breaks : List Nat
deriving DecidableEq, Repr

/-- The dictionary contract: `lookup_phrase` as a pure function. -/
def Dict : Type := List Nat → List Phrase

/-- Internal candidate interval, mirrors `PossibleInterval`. -/
structure PossibleInterval where
  start : Nat
  end_ : Nat
  phrase : Phrase
deriving DecidableEq, Repr

instance : Inhabited PossibleInterval := ⟨⟨0, 0, ⟨[], 0⟩⟩⟩

/-- `PossibleInterval::len`. -/
def PossibleInterval.len (i : PossibleInterval) : Nat := i.end_ - i.start

/-- `PossibleInterval::contains`: `self.start <= other.start && self.end >= other.end`. -/
def PossibleInterval.contains (a b : PossibleInterval) : Bool :=
  a.start ≤ b.start && a.end_ ≥ b.end_

/-- `From<PossibleInterval> for Interval`. -/
def PossibleInterval.toInterval (i : PossibleInterval) : Interval :=
  ⟨i.start, i.end_, i.phrase.chars⟩

/-- Internal path, mirrors `PossiblePath` (a vector of intervals). -/
structure PossiblePath where
  intervals : List PossibleInterval
deriving DecidableEq, Repr

instance : Inhabited PossiblePath := ⟨⟨[]⟩⟩

/-- The slice `&seq.syllables[b..e]`. -/
def sliceSyls (syls : List Nat) (b e : Nat) : List Nat :=
  (syls.drop b).take (e - b)

/-- The per-selection check inside `find_best_phrase`'s `'next_phrase` loop:
a selection `s` with `start <= s.start && end >= s.end` rejects the phrase
when the phrase's characters at offsets `[s.start - start, s.end - start)`
differ from `s.phrase`.  Returns `false` exactly when the phrase is rejected
by `s`. -/
def selOk (start e : Nat) (ph : Phrase) (s : Interval) : Bool :=
  if start ≤ s.start && e ≥ s.end_ then
    ((ph.chars.drop (s.start - start)).take (s.end_ - s.start)) == s.phrase
  else
    true

/-- `ChewingConversionEngine::find_best_phrase`.  The `for br in breaks`
early-return loop is the `any`; the `'next_phrase` loop with `max_freq` /
`best_phrase` accumulators is the fold (whenever `best_phrase` is `Some b`,
`max_freq` equals `b.freq`, so the comparison with `max_freq` is the
comparison with `b.freq`). -/
def find_best_phrase (d : Dict) (start : Nat) (syllables : List Nat)
    (selections : List Interval) (breaks : List Nat) : Option Phrase :=
  let e := start + syllables.length
  if breaks.any (fun b => start < b && b < e) then
    none
  else
    (d syllables).foldl
      (fun best ph =>
        if selections.all (selOk start e ph) then
          match best with
          | none => some ph
          | some b => if ph.freq > b.freq then some ph else some b
        else
          best)
      none

/-- `ChewingConversionEngine::find_intervals`: for every `begin` in
`0..len` and `end` in `begin..=len`, collect the best phrase when present. -/
def find_intervals (d : Dict) (seq : ChineseSequence) : List PossibleInterval :=
  (List.range seq.syllables.length).flatMap fun b =>
    (List.range' b (seq.syllables.length + 1 - b)).filterMap fun e =>
      (find_best_phrase d b (sliceSyls seq.syllables b e) seq.selections seq.breaks).map
        fun ph => ⟨b, e, ph⟩

/-- `PossiblePath::rule_largest_sum`: sum of `end - start` (usize), cast to `i32`. -/
def PossiblePath.rule_largest_sum (p : PossiblePath) : Int :=
  ((p.intervals.foldl (fun acc i => acc + (i.end_ - i.start)) 0 : Nat) : Int)

/-- `PossiblePath::rule_largest_avgwordlen`: `0` for the empty path, else
`6 * rule_largest_sum / intervals.len()` in `i32` division. -/
def PossiblePath.rule_largest_avgwordlen (p : PossiblePath) : Int :=
  if p.intervals.isEmpty then 0
  else 6 * p.rule_largest_sum / (p.intervals.length : Int)

/-- `PossiblePath::rule_smallest_lenvariance`: the nested index loops
`for i in 0..len { for j in i+1..len { score += |len i - len j| } }`,
negated. -/
def PossiblePath.rule_smallest_lenvariance (p : PossiblePath) : Int :=
  -((((List.range p.intervals.length).foldl
      (fun acc i =>
        (List.range' (i + 1) (p.intervals.length - (i + 1))).foldl
          (fun acc2 j =>
            acc2 + Nat.dist ((p.intervals.getD i default).len)
              ((p.intervals.getD j default).len))
          acc)
      0 : Nat) : Int))

/-- `PossiblePath::rule_largest_freqsum`: each interval contributes
`freq / reduction_factor` with factor `512` for single-character intervals. -/
def PossiblePath.rule_largest_freqsum (p : PossiblePath) : Int :=
  ((p.intervals.foldl
      (fun acc i => acc + i.phrase.freq / (if i.len = 1 then 512 else 1)) 0 : Nat) : Int)

/-- `PossiblePath::score`. -/
def PossiblePath.score (p : PossiblePath) : Int :=
  1000 * p.rule_largest_sum + 1000 * p.rule_largest_avgwordlen +
    100 * p.rule_smallest_lenvariance + p.rule_largest_freqsum

/-- The inner `loop` of `PossiblePath::contains` (ported `IsRecContain`).
The cursor `big` into `self.intervals` is represented by the remaining
suffix `self.intervals[big..]`: advance until a `self` interval that still
starts before `o.end` contains `o` (break, keeping the cursor on that
interval), or fail when the intervals run out or the current one starts at
or after `o.end` (the `else { return false }` branch). -/
def findBig (o : PossibleInterval) :
    List PossibleInterval → Option (List PossibleInterval)
  | [] => none
  | i :: rest =>
    if i.start < o.end_ then
      if i.contains o then some (i :: rest) else findBig o rest
    else none

/-- The outer `for sml in 0..other.intervals.len()` loop of
`PossiblePath::contains`; `cur` is the suffix of `self.intervals` from the
current `big` cursor. -/
def containsAux (cur : List PossibleInterval) :
    List PossibleInterval → Bool
  | [] => true
  | o :: rest =>
    match findBig o cur with
    | some suf => containsAux suf rest
    | none => false

/-- `PossiblePath::contains` (ported from the C `IsRecContain`). -/
def PossiblePath.contains (p other : PossiblePath) : Bool :=
  containsAux p.intervals other.intervals

/-- Stable insertion used by `insSort`. -/
def insertSorted (le : α → α → Bool) (x : α) : List α → List α
  | [] => [x]
  | y :: ys => if le x y then x :: y :: ys else y :: insertSorted le x ys

/-- Stable sort (insertion sort).  Models the observable behavior of Rust's
stable `Vec::sort` / `sort_by` for a total `le`. -/
def insSort (le : α → α → Bool) : List α → List α
  | [] => []
  | x :: xs => insertSorted le x (insSort le xs)

/-- The comparator of `intervals.sort_by(|a, b| a.end.cmp(&b.end))`. -/
def intervalEndLe (a b : PossibleInterval) : Bool := a.end_ ≤ b.end_

/-- The `Ord for PossiblePath` comparator (`self.score().cmp(&other.score())`)
as the `le` of the stable `trimmed_paths.sort()`. -/
def pathScoreLe (p q : PossiblePath) : Bool := p.score ≤ q.score

/-- One iteration of the `for interval in intervals` loop in
`find_best_path`: extend `highest_score[interval.start]` with the interval
and replace `highest_score[interval.end]` when the score strictly
increases. -/
def bestPathStep (hs : List PossiblePath) (i : PossibleInterval) :
    List PossiblePath :=
  let cand : PossiblePath := ⟨(hs.getD i.start default).intervals ++ [i]⟩
  if (hs.getD i.end_ default).score < cand.score then hs.set i.end_ cand else hs

/-- `ChewingConversionEngine::find_best_path`: `highest_score` is a vector
of `len + 1` default (empty) paths, the intervals are stably sorted by
increasing `end`, processed in order, and entry `len` is returned. -/
def find_best_path (len : Nat) (intervals : List PossibleInterval) :
    List Interval :=
  (((insSort intervalEndLe intervals).foldl bestPathStep
      (List.replicate (len + 1) ⟨[]⟩)).getD len ⟨[]⟩).intervals.map
    PossibleInterval.toInterval

/-- `ConversionEngine::convert for ChewingConversionEngine`. -/
def convert (d : Dict) (seq : ChineseSequence) : List Interval :=
  if seq.syllables.isEmpty then []
  else find_best_path seq.syllables.length (find_intervals d seq)

/-- `ChewingConversionEngine::trim_paths`.  The inner `for p in
trimmed_paths` loop carries the `drop_candidate` flag and the `keeper`
vector. -/
def trim_paths (paths : List PossiblePath) : List PossiblePath :=
  paths.foldl
    (fun trimmed candidate =>
      let s :=
        trimmed.foldl
          (fun (acc : Bool × List PossiblePath) p =>
            if acc.1 || p.contains candidate then (true, acc.2 ++ [p])
            else if candidate.contains p then acc
            else (acc.1, acc.2 ++ [p]))
          (false, [])
      if s.1 then s.2 else s.2 ++ [candidate])
    []

/-- `ChewingConversionEngine::find_all_paths`, with explicit fuel for the
recursion (the Rust recursion is unbounded when the dictionary returns a
phrase for the empty syllable slice, because the `end == start` iteration
then recurses without progress).  `pre` is the `prefix` accumulator; the
initial Rust call passes `None` and the `start == target` `expect` on it is
unreachable because `convert_next` guards against empty inputs, so `pre` is
modelled as a plain interval list starting empty.  The memoization `graph`
caches the pure `find_best_phrase` and is dropped. -/
def find_all_paths_fuel (d : Dict) (seq : ChineseSequence) :
    Nat → Nat → Nat → List PossibleInterval → Option (List PossiblePath)
  | 0, _, _, _ => none
  | fuel + 1, start, target, pre =>
    if start = target then some [⟨pre⟩]
    else
      (List.range' start (target + 1 - start)).foldl
        (fun acc e =>
          match acc with
          | none => none
          | some res =>
            match
              find_best_phrase d start (sliceSyls seq.syllables start e)
                seq.selections seq.breaks
            with
            | some ph =>
              match
                find_all_paths_fuel d seq fuel e target (pre ++ [⟨start, e, ph⟩])
              with
              | some r => some (res ++ r)
              | none => none
            | none => some res)
        (some [])

/-- The list of alternative paths built by `convert_next`: enumerate all
paths from `0` to `n` (fuel `n + 1` suffices whenever the dictionary maps
the empty syllable list to no phrase), trim, stable-sort ascending by
score, and reverse (the `.rev()` before `.cycle()`). -/
def alternatives (d : Dict) (seq : ChineseSequence) : List PossiblePath :=
  (insSort pathScoreLe
      (trim_paths
        ((find_all_paths_fuel d seq (seq.syllables.length + 1) 0
            seq.syllables.length []).getD []))).reverse

/-- `ConversionEngine::convert_next for ChewingConversionEngine`.
`rev().cycle().nth(next)` is entry `next % length` of the reversed sorted
list; the `expect("should have path")` panic on an empty cycle is modelled
as `none`. -/
def convert_next (d : Dict) (seq : ChineseSequence) (next : Nat) :
    Option (List Interval) :=
  if seq.syllables.isEmpty then some []
  else
    let alts := alternatives d seq
    if alts.isEmpty then none
    else
      some
        ((alts.getD (next % alts.length) default).intervals.map
          PossibleInterval.toInterval)

/-! ### Specification-side definitions

These definitions follow the specification's words (not the code) and are
used to state refinement claims and counterexamples. -/

/-- Spec §4.2 step 3, stated from the spec's words: among candidates,
the one with the highest `freq`, ties resolved to the first encountered in
iteration order. -/
def firstMax : List Phrase → Option Phrase
  | [] => none
  | p :: rest =>
    match firstMax rest with
    | none => some p
    | some q => if q.freq > p.freq then some q else some p

/-- Spec §4.7, one trimming step stated from the spec's words: scan `kept`
in order; if some kept `p` contains the candidate, the candidate is dropped
and every kept entry from the first such `p` on is retained unchecked;
kept entries before that point (all of `kept` when no `p` contains the
candidate) are discarded exactly when the candidate contains them; the
candidate is appended iff it was not dropped. -/
def trimStepSpec (kept : List PossiblePath) (c : PossiblePath) :
    List PossiblePath :=
  let pre := kept.takeWhile fun p => !(p.contains c)
  let post := kept.dropWhile fun p => !(p.contains c)
  match post with
  | [] => (pre.filter fun p => !(c.contains p)) ++ [c]
  | _ => (pre.filter fun p => !(c.contains p)) ++ post

/-- Spec §4.7, the single pass over all enumerated paths. -/
def trimSpec (paths : List PossiblePath) : List PossiblePath :=
  paths.foldl trimStepSpec []

/-- Sum over all unordered pairs of a list of the absolute difference of
the two elements (the spec's wording of rule R3, before negation). -/
def pairAbsDiffSum : List Nat → Nat
  | [] => 0
  | x :: xs => (xs.map (Nat.dist x)).sum + pairAbsDiffSum xs

/-- `l` is a contiguous chain of candidate intervals from position `s` to
position `t`: the first interval starts at `s`, each interval's `end_` is
the next interval's `start`, and the last ends at `t` (empty chain only
when `s = t`). -/
def chainFromPI (s t : Nat) : List PossibleInterval → Bool
  | [] => s == t
  | i :: rest => i.start == s && chainFromPI i.end_ t rest

/-- Same contiguous-chain predicate on public intervals. -/
def chainFromI (s t : Nat) : List Interval → Bool
  | [] => s == t
  | i :: rest => i.start == s && chainFromI i.end_ t rest

/-- A well-formed cover path from `s` to `t` exists inside the candidate
grid: a contiguous chain of grid intervals, each of positive length. -/
def CoverExists (grid : List PossibleInterval) (s t : Nat) : Prop :=
  ∃ pis : List PossibleInterval,
    (∀ i ∈ pis, i ∈ grid ∧ i.start < i.end_) ∧ chainFromPI s t pis = true

/-- Lexicographic order on `Nat` lists (used for the phrase component of
the path-lexicographic order named by the spec). -/
def natListLt : List Nat → List Nat → Bool
  | [], [] => false
  | [], _ :: _ => true
  | _ :: _, [] => false
  | x :: xs, y :: ys => x < y || (x == y && natListLt xs ys)

/-- Interval order by `start`, then `end`, then phrase (spec §4.8). -/
def intervalLexLt (a b : PossibleInterval) : Bool :=
  a.start < b.start ||
    (a.start == b.start &&
      (a.end_ < b.end_ ||
        (a.end_ == b.end_ && natListLt a.phrase.chars b.phrase.chars)))

/-- Path-lexicographic order: intervals compared position by position with
`intervalLexLt`, shorter prefix first. -/
def pathLexLt : List PossibleInterval → List PossibleInterval → Bool
  | [], [] => false
  | [], _ :: _ => true
  | _ :: _, [] => false
  | a :: as_, b :: bs =>
    intervalLexLt a b || (a == b && pathLexLt as_ bs)

/-! ### Concrete fixtures for witnesses and counterexamples -/

/-- Dictionary with a huge-frequency single-syllable phrase at position 1:
`[0,1] ↦ AB(freq 1)`, `[1] ↦ B(freq 4096000)`. -/
def dHuge : Dict := fun s =>
  if s = [0, 1] then [⟨[10, 11], 1⟩]
  else if s = [1] then [⟨[11], 4096000⟩]
  else []

/-- Two-syllable sequence, no constraints. -/
def seqHuge : ChineseSequence := ⟨[0, 1], [], []⟩

/-- Dictionary for the selection counterexample: every sub-range has a
phrase, but the selection at `[0,1)` is inconsistent with all of them. -/
def dSel : Dict := fun s =>
  if s = [0, 1] then [⟨[10, 11], 5⟩]
  else if s = [0] then [⟨[10], 1⟩]
  else if s = [1] then [⟨[11], 1⟩]
  else []

/-- Two syllables with a selection whose phrase `[99]` matches no
dictionary phrase at `[0,1)`. -/
def seqSel : ChineseSequence := ⟨[0, 1], [⟨0, 1, [99]⟩], []⟩

/-- Dictionary over three syllables producing exactly two incomparable
cover paths of equal score:
`[0] ↦ A(512)`, `[0,1] ↦ AB(512)`, `[1,2] ↦ BC(512)`, `[2] ↦ C(512)`. -/
def dTie : Dict := fun s =>
  if s = [0] then [⟨[10], 512⟩]
  else if s = [0, 1] then [⟨[10, 11], 512⟩]
  else if s = [1, 2] then [⟨[11, 12], 512⟩]
  else if s = [2] then [⟨[12], 512⟩]
  else []

/-- Three-syllable sequence, no constraints. -/
def seqTie : ChineseSequence := ⟨[0, 1, 2], [], []⟩

/-- The first enumerated path for `dTie`/`seqTie`. -/
def pTieA : PossiblePath := ⟨[⟨0, 1, ⟨[10], 512⟩⟩, ⟨1, 3, ⟨[11, 12], 512⟩⟩]⟩

/-- The second enumerated path for `dTie`/`seqTie`. -/
def pTieB : PossiblePath := ⟨[⟨0, 2, ⟨[10, 11], 512⟩⟩, ⟨2, 3, ⟨[12], 512⟩⟩]⟩

/-- Dictionary covering two syllables with a break-respecting grid. -/
def dBrk : Dict := fun s =>
  if s = [0] then [⟨[10], 1⟩]
  else if s = [1] then [⟨[11], 1⟩]
  else if s = [0, 1] then [⟨[10, 11], 200⟩]
  else []

/-- Two syllables with a break at position 1. -/
def seqBrk : ChineseSequence := ⟨[0, 1], [], [1]⟩

/-! ### Generic list lemmas -/

theorem foldlCongr {f g : σ → α → σ} :
    ∀ (l : List α) (a : σ), (∀ s x, x ∈ l → f s x = g s x) →
      l.foldl f a = l.foldl g a := by
  intro l
  induction l with
  | nil => intro a _; rfl
  | cons x xs ih =>
    intro a h
    simp only [List.foldl_cons]
    rw [h a x (by simp)]
    exact ih _ fun s y hy => h s y (by simp [hy])

theorem foldlAddNat (f : α → Nat) :
    ∀ (l : List α) (a : Nat),
      l.foldl (fun acc x => acc + f x) a = a + (l.map f).sum := by
  intro l
  induction l with
  | nil => simp
  | cons x xs ih =>
    intro a
    simp only [List.foldl_cons, List.map_cons, List.sum_cons, ih]
    omega

theorem foldlInv (P : σ → Prop) (step : σ → α → σ) :
    ∀ (l : List α) (init : σ),
      (∀ s x, x ∈ l → P s → P (step s x)) → P init → P (l.foldl step init) := by
  intro l
  induction l with
  | nil => intro init _ h; exact h
  | cons x xs ih =>
    intro init hstep hinit
    exact ih _ (fun s y hy => hstep s y (by simp [hy]))
      (hstep init x (by simp) hinit)

theorem memInsertSorted (le : α → α → Bool) (x a : α) :
    ∀ l : List α, (a ∈ insertSorted le x l ↔ a = x ∨ a ∈ l) := by
  intro l
  induction l with
  | nil => simp [insertSorted]
  | cons y ys ih =>
    by_cases h : le x y = true
    · simp [insertSorted, h]
    · simp only [insertSorted, h]
      simp only [Bool.false_eq_true, if_false, List.mem_cons, ih]
      tauto

theorem memInsSort (le : α → α → Bool) (a : α) :
    ∀ l : List α, (a ∈ insSort le l ↔ a ∈ l) := by
  intro l
  induction l with
  | nil => simp [insSort]
  | cons x xs ih =>
    simp [insSort, memInsertSorted, ih]

theorem pairwiseInsertSorted (le : α → α → Bool)
    (htot : ∀ a b, le a b = false → le b a = true)
    (htrans : ∀ a b c, le a b = true → le b c = true → le a c = true) (x : α) :
    ∀ l : List α, l.Pairwise (fun a b => le a b = true) →
      (insertSorted le x l).Pairwise (fun a b => le a b = true) := by
  intro l
  induction l with
  | nil => intro _; simp [insertSorted]
  | cons y ys ih =>
    intro hp
    rcases List.pairwise_cons.mp hp with ⟨hy, hys⟩
    by_cases h : le x y = true
    · simp only [insertSorted, h, if_true]
      refine List.pairwise_cons.mpr ⟨?_, hp⟩
      intro z hz
      rcases List.mem_cons.mp hz with rfl | hz
      · exact h
      · exact htrans x y z h (hy z hz)
    · simp only [insertSorted, h]
      simp only [Bool.false_eq_true, if_false]
      refine List.pairwise_cons.mpr ⟨?_, ih hys⟩
      intro z hz
      rcases (memInsertSorted le x z _).mp hz with hzx | hz
      · rw [hzx]; exact htot x y (by simpa using h)
      · exact hy z hz

theorem pairwiseInsSort (le : α → α → Bool)
    (htot : ∀ a b, le a b = false → le b a = true)
    (htrans : ∀ a b c, le a b = true → le b c = true → le a c = true) :
    ∀ l : List α, (insSort le l).Pairwise (fun a b => le a b = true) := by
  intro l
  induction l with
  | nil => simp [insSort]
  | cons x xs ih => exact pairwiseInsertSorted le htot htrans x _ ih

theorem filterInsertSortedScore (c : Int) (x : PossiblePath) :
    ∀ l : List PossiblePath,
      (insertSorted pathScoreLe x l).filter (fun p => decide (p.score = c)) =
        if x.score = c then x :: l.filter (fun p => decide (p.score = c))
        else l.filter (fun p => decide (p.score = c)) := by
  intro l
  induction l with
  | nil =>
    by_cases hx : x.score = c <;> simp [insertSorted, List.filter_cons, hx]
  | cons y ys ih =>
    by_cases h : pathScoreLe x y = true
    · simp only [insertSorted, h, if_true]
      by_cases hx : x.score = c <;> simp [List.filter_cons, hx]
    · have hyx : y.score < x.score := by
        simp only [pathScoreLe, decide_eq_true_eq] at h
        omega
      simp only [insertSorted, h]
      simp only [Bool.false_eq_true, if_false]
      by_cases hx : x.score = c
      · have hy : ¬(y.score = c) := by omega
        simp [List.filter_cons, hy, ih, hx]
      · by_cases hy : y.score = c <;> simp [List.filter_cons, hy, ih, hx]

theorem filterInsSortScore (c : Int) :
    ∀ l : List PossiblePath,
      (insSort pathScoreLe l).filter (fun p => decide (p.score = c)) =
        l.filter (fun p => decide (p.score = c)) := by
  intro l
  induction l with
  | nil => rfl
  | cons x xs ih =>
    simp only [insSort]
    rw [filterInsertSortedScore]
    by_cases hx : x.score = c <;> simp [List.filter_cons, hx, ih]

theorem getDSetEq (a d : α) :
    ∀ (l : List α) (n : Nat), n < l.length → (l.set n a).getD n d = a := by
  intro l
  induction l with
  | nil => intro n h; simp at h
  | cons x xs ih =>
    intro n h
    cases n with
    | zero => rfl
    | succ m =>
      simp only [List.set]
      simp only [List.getD_cons_succ]
      exact ih m (by simpa using h)

theorem getDSetNe (a d : α) :
    ∀ (l : List α) (n m : Nat), n ≠ m → (l.set n a).getD m d = l.getD m d := by
  intro l
  induction l with
  | nil => intro n m _; simp
  | cons x xs ih =>
    intro n m hne
    cases n with
    | zero =>
      cases m with
      | zero => exact absurd rfl hne
      | succ k => rfl
    | succ n' =>
      cases m with
      | zero => rfl
      | succ k =>
        simp only [List.set, List.getD_cons_succ]
        exact ih n' k (by omega)

/-- Combine a best-so-far candidate (earlier in iteration order) with the
first-maximum of the remaining candidates: the later one wins only with a
strictly larger frequency. -/
def mergeBest : Option Phrase → Option Phrase → Option Phrase
  | none, r => r
  | some b, none => some b
  | some b, some q => if q.freq > b.freq then some q else some b

theorem foldlFirstMax (P : Phrase → Bool) :
    ∀ (l : List Phrase) (best : Option Phrase),
      l.foldl
        (fun best ph =>
          if P ph then
            match best with
            | none => some ph
            | some b => if ph.freq > b.freq then some ph else some b
          else best)
        best = mergeBest best (firstMax (l.filter P)) := by
  intro l
  induction l with
  | nil => intro best; cases best <;> rfl
  | cons p rest ih =>
    intro best
    simp only [List.foldl_cons]
    rw [ih, List.filter_cons]
    by_cases hp : P p = true
    · simp only [hp, if_true]
      cases best with
      | none =>
        cases hFM : firstMax (rest.filter P) with
        | none => simp [mergeBest, firstMax, hFM]
        | some q => simp [mergeBest, firstMax, hFM]
      | some b =>
        cases hFM : firstMax (rest.filter P) with
        | none =>
          simp only [firstMax, hFM]
          by_cases h1 : p.freq > b.freq <;> simp [mergeBest, h1]
        | some q =>
          simp only [firstMax, hFM]
          by_cases h1 : p.freq > b.freq <;> by_cases h2 : q.freq > p.freq <;>
            by_cases h3 : q.freq > b.freq <;>
              simp [mergeBest, h1, h2, h3] <;> omega
    · simp only [hp]
      simp only [Bool.false_eq_true, if_false]

theorem getDReplicate (d x : α) :
    ∀ (n i : Nat), (List.replicate n x).getD i d = if i < n then x else d := by
  intro n
  induction n with
  | zero => intro i; simp
  | succ m ih =>
    intro i
    cases i with
    | zero => simp [List.replicate]
    | succ j =>
      simp only [List.replicate, List.getD_cons_succ, ih]
      by_cases h : j < m
      · simp [h, Nat.succ_lt_succ h]
      · have : ¬(j + 1 < m + 1) := by omega
        simp [h, this]

/-! ### Claim C4 -/

/-- C4: with `end = start + |syllables|`, `find_best_phrase` returns none
when some break `b` satisfies `start < b < end`; otherwise a dictionary
phrase is rejected iff some selection `s` with `start ≤ s.start` and
`end ≥ s.end` has `s.phrase` differing from the phrase's characters at
offsets `[s.start − start, s.end − start)` (the `selOk` check), and among
surviving phrases the result is the first-encountered one of highest
frequency (`firstMax`). -/
theorem claim_C4 (d : Dict) (start : Nat) (syllables : List Nat)
    (selections : List Interval) (breaks : List Nat) :
    find_best_phrase d start syllables selections breaks =
      if breaks.any (fun b => start < b && b < start + syllables.length) then
        none
      else
        firstMax ((d syllables).filter
          (fun ph => selections.all (selOk start (start + syllables.length) ph))) := by
  simp only [find_best_phrase]
  by_cases h : breaks.any (fun b => start < b && b < start + syllables.length) = true
  · simp [h]
  · simp only [h, Bool.false_eq_true, if_false]
    rw [foldlFirstMax]
    rfl

/-! ### Claim C6 -/

/-- The inner-loop step of `trim_paths` for candidate `c`. -/
def trimInnerStep (c : PossiblePath) (acc : Bool × List PossiblePath)
    (p : PossiblePath) : Bool × List PossiblePath :=
  if acc.1 || p.contains c then (true, acc.2 ++ [p])
  else if c.contains p then acc
  else (acc.1, acc.2 ++ [p])

theorem trimInnerTrue (c : PossiblePath) :
    ∀ (kept : List PossiblePath) (acc2 : List PossiblePath),
      kept.foldl (trimInnerStep c) (true, acc2) = (true, acc2 ++ kept) := by
  intro kept
  induction kept with
  | nil => intro acc2; simp
  | cons p rest ih =>
    intro acc2
    simp only [List.foldl_cons, trimInnerStep, Bool.true_or, if_true, ih]
    simp

theorem trimInnerFalse (c : PossiblePath) :
    ∀ (kept : List PossiblePath) (acc2 : List PossiblePath),
      kept.foldl (trimInnerStep c) (false, acc2) =
        if (kept.dropWhile fun p => !(p.contains c)) = [] then
          (false, acc2 ++ kept.filter fun p => !(c.contains p))
        else
          (true,
            acc2 ++ ((kept.takeWhile fun p => !(p.contains c)).filter
              fun p => !(c.contains p)) ++
              kept.dropWhile fun p => !(p.contains c)) := by
  intro kept
  induction kept with
  | nil => intro acc2; simp
  | cons p rest ih =>
    intro acc2
    by_cases hp : p.contains c = true
    · simp only [List.foldl_cons, trimInnerStep, hp, Bool.false_or, if_true,
        trimInnerTrue, List.dropWhile_cons, List.takeWhile_cons, Bool.not_true,
        Bool.false_eq_true, if_false]
      simp
    · have hp' : (!(p.contains c)) = true := by simp [hp]
      by_cases hc : c.contains p = true
      · simp only [List.foldl_cons, trimInnerStep, hp, Bool.false_or,
          Bool.false_eq_true, if_false, hc, if_true, ih,
          List.dropWhile_cons, List.takeWhile_cons, hp', List.filter_cons, hc,
          Bool.not_true]
        simp [hc]
      · simp only [List.foldl_cons, trimInnerStep, hp, Bool.false_or,
          Bool.false_eq_true, if_false, hc, ih,
          List.dropWhile_cons, List.takeWhile_cons, hp', List.filter_cons,
          Bool.not_true]
        by_cases hd : (rest.dropWhile fun q => !(q.contains c)) = []
        · simp [hd, hc]
        · simp [hd, hc]

theorem trimStepEq (kept : List PossiblePath) (c : PossiblePath) :
    (let s := kept.foldl (trimInnerStep c) (false, []);
      if s.1 then s.2 else s.2 ++ [c]) = trimStepSpec kept c := by
  simp only [trimInnerFalse]
  by_cases hd : (kept.dropWhile fun p => !(p.contains c)) = []
  · have hk : kept.takeWhile (fun p => !(p.contains c)) = kept := by
      have := List.takeWhile_append_dropWhile
        (p := fun p => !(p.contains c)) (l := kept)
      rw [hd] at this
      simpa using this
    simp only [hd, if_true, trimStepSpec, hk]
    simp
  · simp only [hd, if_false, trimStepSpec]
    rcases he : kept.dropWhile fun p => !(p.contains c) with _ | ⟨q, qs⟩
    · exact absurd he hd
    · simp [he]

/-- C6: `trim_paths` implements exactly the single-pass historical trimming
algorithm described by the spec (`trimSpec`): a candidate is dropped as soon
as some kept path contains it, in which case every remaining kept entry is
retained unchecked; otherwise kept paths contained in the candidate are
discarded and the candidate is appended. -/
theorem claim_C6 (paths : List PossiblePath) :
    trim_paths paths = trimSpec paths := by
  simp only [trim_paths, trimSpec]
  refine foldlCongr paths [] ?_
  intro kept c _
  exact trimStepEq kept c

/-! ### Claim C5 -/

theorem mapRangeGetD (dd : α) (F : α → β) :
    ∀ l : List α,
      (List.range l.length).map (fun j => F (l.getD j dd)) = l.map F := by
  intro l
  induction l with
  | nil => simp
  | cons x xs ih =>
    rw [List.length_cons, List.range_succ_eq_map, List.map_cons, List.map_map,
      List.map_cons]
    refine congrArg₂ _ (by simp) ?_
    rw [← ih]
    refine List.map_congr_left ?_
    intro a _
    simp [Function.comp, List.getD_cons_succ]

theorem doubleFoldSum (f : Nat → Nat → Nat) (n : Nat) :
    (List.range n).foldl
      (fun acc i =>
        (List.range' (i + 1) (n - (i + 1))).foldl (fun acc2 j => acc2 + f i j) acc)
      0 =
    ((List.range n).map
      (fun i => ((List.range' (i + 1) (n - (i + 1))).map (f i)).sum)).sum := by
  have h1 : (List.range n).foldl
      (fun acc i =>
        (List.range' (i + 1) (n - (i + 1))).foldl (fun acc2 j => acc2 + f i j) acc)
      0 =
      (List.range n).foldl
        (fun acc i => acc + ((List.range' (i + 1) (n - (i + 1))).map (f i)).sum)
        0 :=
    foldlCongr _ _ (fun acc i _ => foldlAddNat (f i) _ acc)
  rw [h1, foldlAddNat]
  simp

theorem innerShift (g : α → Nat) (dd : α) (x : α) (xs : List α) (i : Nat) :
    ((List.range' (i + 1 + 1) (xs.length + 1 - (i + 1 + 1))).map
      (fun j => Nat.dist (g ((x :: xs).getD (i + 1) dd))
        (g ((x :: xs).getD j dd)))).sum =
    ((List.range' (i + 1) (xs.length - (i + 1))).map
      (fun j => Nat.dist (g (xs.getD i dd)) (g (xs.getD j dd)))).sum := by
  have hk : xs.length + 1 - (i + 1 + 1) = xs.length - (i + 1) := by omega
  rw [hk, List.range'_eq_map_range, List.range'_eq_map_range, List.map_map,
    List.map_map]
  refine congrArg _ ?_
  refine List.map_congr_left ?_
  intro a _
  have h2 : i + 1 + 1 + a = (i + 1 + a) + 1 := by omega
  simp only [Function.comp, h2, List.getD_cons_succ]

theorem sumPairs (g : α → Nat) (dd : α) :
    ∀ l : List α,
      ((List.range l.length).map
        (fun i =>
          ((List.range' (i + 1) (l.length - (i + 1))).map
            (fun j => Nat.dist (g (l.getD i dd)) (g (l.getD j dd)))).sum)).sum =
      pairAbsDiffSum (l.map g) := by
  intro l
  induction l with
  | nil => simp [pairAbsDiffSum]
  | cons x xs ih =>
    rw [List.length_cons, List.range_succ_eq_map, List.map_cons, List.sum_cons,
      List.map_map]
    have hhead :
        ((List.range' (0 + 1) (xs.length + 1 - (0 + 1))).map
          (fun j => Nat.dist (g ((x :: xs).getD 0 dd))
            (g ((x :: xs).getD j dd)))).sum =
        ((xs.map g).map (Nat.dist (g x))).sum := by
      rw [List.range'_eq_map_range, List.map_map]
      have hs : xs.length + 1 - (0 + 1) = xs.length := by omega
      rw [hs]
      have hmap :
          (List.range xs.length).map
            ((fun j => Nat.dist (g ((x :: xs).getD 0 dd))
              (g ((x :: xs).getD j dd))) ∘ fun a => 0 + 1 + a) =
          (List.range xs.length).map
            (fun j => Nat.dist (g x) (g (xs.getD j dd))) := by
        refine List.map_congr_left ?_
        intro a _
        have h2 : 0 + 1 + a = a + 1 := by omega
        simp only [Function.comp, h2, List.getD_cons_succ, List.getD_cons_zero]
      rw [hmap, mapRangeGetD dd (fun y => Nat.dist (g x) (g y)) xs, List.map_map]
      rfl
    have htail :
        ((List.range xs.length).map
          ((fun i =>
            ((List.range' (i + 1) (xs.length + 1 - (i + 1))).map
              (fun j => Nat.dist (g ((x :: xs).getD i dd))
                (g ((x :: xs).getD j dd)))).sum) ∘ Nat.succ)).sum =
        pairAbsDiffSum (xs.map g) := by
      rw [← ih]
      refine congrArg _ ?_
      refine List.map_congr_left ?_
      intro i _
      simp only [Function.comp, Nat.succ_eq_add_one]
      exact innerShift g dd x xs i
    rw [hhead, htail, List.map_cons, pairAbsDiffSum]

theorem rlsEq (p : PossiblePath) :
    p.rule_largest_sum =
      (((p.intervals.map fun i => i.end_ - i.start).sum : Nat) : Int) := by
  simp only [PossiblePath.rule_largest_sum]
  rw [foldlAddNat (fun i : PossibleInterval => i.end_ - i.start) p.intervals 0]
  simp

theorem rfsEq (p : PossiblePath) :
    p.rule_largest_freqsum =
      (((p.intervals.map
        fun i => i.phrase.freq / (if i.len = 1 then 512 else 1)).sum : Nat) : Int) := by
  simp only [PossiblePath.rule_largest_freqsum]
  rw [foldlAddNat
    (fun i : PossibleInterval => i.phrase.freq / (if i.len = 1 then 512 else 1))
    p.intervals 0]
  simp

theorem rvarEq (p : PossiblePath) :
    p.rule_smallest_lenvariance =
      -((pairAbsDiffSum (p.intervals.map PossibleInterval.len) : Nat) : Int) := by
  simp only [PossiblePath.rule_smallest_lenvariance]
  refine congrArg _ ?_
  refine congrArg _ ?_
  rw [doubleFoldSum
    (fun i j => Nat.dist ((p.intervals.getD i default).len)
      ((p.intervals.getD j default).len)) p.intervals.length]
  exact sumPairs PossibleInterval.len default p.intervals

/-- C5: for every non-empty path whose score the engine computes, `score`
equals `1000·R1 + 1000·R2 + 100·R3 + R4` with `R1` the sum of interval
lengths, `R2 = 6·R1 / |intervals|` in truncating integer division, `R3` the
negated sum over all unordered interval pairs of the absolute difference of
their lengths, and `R4` the sum of interval frequencies with single-length
intervals contributing `freq / 512`. -/
theorem claim_C5 (p : PossiblePath) (h : p.intervals ≠ []) :
    p.score =
      1000 * (((p.intervals.map fun i => i.end_ - i.start).sum : Nat) : Int) +
        1000 * (6 * (((p.intervals.map fun i => i.end_ - i.start).sum : Nat) : Int) /
          (p.intervals.length : Int)) +
        100 * (-((pairAbsDiffSum (p.intervals.map PossibleInterval.len) : Nat) : Int)) +
        (((p.intervals.map
          fun i => i.phrase.freq / (if i.len = 1 then 512 else 1)).sum : Nat) : Int) := by
  have hne : p.intervals.isEmpty = false := by
    cases hi : p.intervals with
    | nil => exact absurd hi h
    | cons a as => rfl
  simp only [PossiblePath.score, PossiblePath.rule_largest_avgwordlen, hne,
    Bool.false_eq_true, if_false, rlsEq, rfsEq, rvarEq]

/-- C5 witness: the score formula evaluated on the concrete two-interval
path `pTieA`. -/
theorem claim_C5_witness :
    pTieA.intervals ≠ [] ∧
      pTieA.score =
        1000 * (((pTieA.intervals.map fun i => i.end_ - i.start).sum : Nat) : Int) +
          1000 * (6 * (((pTieA.intervals.map fun i => i.end_ - i.start).sum : Nat) : Int) /
            (pTieA.intervals.length : Int)) +
          100 * (-((pairAbsDiffSum (pTieA.intervals.map PossibleInterval.len) : Nat) : Int)) +
          (((pTieA.intervals.map
            fun i => i.phrase.freq / (if i.len = 1 then 512 else 1)).sum : Nat) : Int) :=
  ⟨by decide, claim_C5 pTieA (by decide)⟩

/-! ### Dynamic-programming invariant of `find_best_path` -/

theorem chainAppendPI (i : PossibleInterval) :
    ∀ (l : List PossibleInterval) (s t : Nat), chainFromPI s t l = true →
      i.start = t → chainFromPI s i.end_ (l ++ [i]) = true := by
  intro l
  induction l with
  | nil =>
    intro s t hc hi
    simp only [chainFromPI] at hc
    simp only [List.nil_append, chainFromPI]
    have : s = t := by simpa using hc
    simp [hi, this]
  | cons a as ih =>
    intro s t hc hi
    simp only [chainFromPI, Bool.and_eq_true] at hc
    simp only [List.cons_append, chainFromPI, Bool.and_eq_true]
    exact ⟨hc.1, ih a.end_ t hc.2 hi⟩

theorem chainMapPI :
    ∀ (l : List PossibleInterval) (s t : Nat), chainFromPI s t l = true →
      chainFromI s t (l.map PossibleInterval.toInterval) = true := by
  intro l
  induction l with
  | nil => intro s t hc; simpa [chainFromPI, chainFromI] using hc
  | cons a as ih =>
    intro s t hc
    simp only [chainFromPI, Bool.and_eq_true] at hc
    simp only [List.map_cons, chainFromI, Bool.and_eq_true]
    exact ⟨hc.1, ih a.end_ t hc.2⟩

/-- Invariant of the `highest_score` vector: it has `n + 1` entries, and
entry `e` is a contiguous chain of input intervals ending at `e` (possibly
empty, and not necessarily starting at `0`). -/
def dpInv (n : Nat) (orig : List PossibleInterval) (hs : List PossiblePath) :
    Prop :=
  hs.length = n + 1 ∧
    ∀ e, e ≤ n →
      (∀ i ∈ (hs.getD e ⟨[]⟩).intervals, i ∈ orig) ∧
        ∃ s, chainFromPI s e (hs.getD e ⟨[]⟩).intervals = true

theorem dpInvInit (n : Nat) (orig : List PossibleInterval) :
    dpInv n orig (List.replicate (n + 1) ⟨[]⟩) := by
  constructor
  · simp
  · intro e he
    rw [getDReplicate]
    have : e < n + 1 := Nat.lt_succ_of_le he
    simp only [this, if_true]
    exact ⟨by simp, e, by simp [chainFromPI]⟩

theorem dpInvStep (n : Nat) (orig : List PossibleInterval)
    (hs : List PossiblePath) (i : PossibleInterval) (hi : i ∈ orig)
    (hstart : i.start ≤ n) (hend : i.end_ ≤ n) (h : dpInv n orig hs) :
    dpInv n orig (bestPathStep hs i) := by
  rcases h with ⟨hlen, hinv⟩
  simp only [bestPathStep]
  by_cases hrep :
      (hs.getD i.end_ default).score <
        (⟨(hs.getD i.start default).intervals ++ [i]⟩ : PossiblePath).score
  · simp only [hrep, if_true]
    constructor
    · simp [hlen]
    · intro e he
      by_cases heq : i.end_ = e
      · subst heq
        rw [getDSetEq _ _ _ _ (by omega)]
        rcases hinv i.start hstart with ⟨hmem, s, hchain⟩
        refine ⟨?_, s, chainAppendPI i _ s i.start hchain rfl⟩
        intro j hj
        rcases List.mem_append.mp hj with hj | hj
        · exact hmem j hj
        · rcases List.mem_singleton.mp hj with rfl
          exact hi
      · rw [getDSetNe _ _ _ _ _ heq]
        exact hinv e he
  · simp only [hrep, if_false]
    exact ⟨hlen, hinv⟩

/-- Master specification of `find_best_path`: the result is the image of a
contiguous chain of input intervals ending at `n` (possibly empty, possibly
not starting at `0`). -/
theorem findBestPathSpec (n : Nat) (l : List PossibleInterval)
    (hb : ∀ i ∈ l, i.start ≤ n ∧ i.end_ ≤ n) :
    ∃ pis : List PossibleInterval,
      find_best_path n l = pis.map PossibleInterval.toInterval ∧
        (∀ i ∈ pis, i ∈ l) ∧ ∃ s, chainFromPI s n pis = true := by
  have hfold :
      dpInv n l
        ((insSort intervalEndLe l).foldl bestPathStep
          (List.replicate (n + 1) ⟨[]⟩)) := by
    refine foldlInv (dpInv n l) bestPathStep _ _ ?_ (dpInvInit n l)
    intro s x hx hP
    have hxl : x ∈ l := (memInsSort intervalEndLe x l).mp hx
    exact dpInvStep n l s x hxl (hb x hxl).1 (hb x hxl).2 hP
  rcases hfold with ⟨hlen, hinv⟩
  rcases hinv n (Nat.le_refl n) with ⟨hmem, s, hchain⟩
  exact ⟨_, rfl, hmem, s, hchain⟩

/-! ### Candidate-grid lemmas -/

theorem sliceLen (l : List Nat) (b e : Nat) (hbe : b ≤ e)
    (hel : e ≤ l.length) : (sliceSyls l b e).length = e - b := by
  simp only [sliceSyls, List.length_take, List.length_drop]
  omega

theorem memFindIntervals (d : Dict) (seq : ChineseSequence)
    (i : PossibleInterval) (h : i ∈ find_intervals d seq) :
    i.start ≤ i.end_ ∧ i.end_ ≤ seq.syllables.length ∧
      find_best_phrase d i.start (sliceSyls seq.syllables i.start i.end_)
        seq.selections seq.breaks = some i.phrase := by
  simp only [find_intervals] at h
  rcases List.mem_flatMap.mp h with ⟨b, hb, hmem⟩
  rcases List.mem_filterMap.mp hmem with ⟨e, he, hsome⟩
  rcases Option.map_eq_some'.mp hsome with ⟨ph, hph, heq⟩
  have hb' : b < seq.syllables.length := List.mem_range.mp hb
  have he' := List.mem_range'_1.mp he
  subst heq
  refine ⟨?_, ?_, hph⟩
  · show b ≤ e
    omega
  · show e ≤ seq.syllables.length
    omega

theorem findBestPhraseBreaks (d : Dict) (start : Nat) (syls : List Nat)
    (sels : List Interval) (brks : List Nat) (ph : Phrase)
    (h : find_best_phrase d start syls sels brks = some ph) :
    ∀ b ∈ brks, ¬(start < b ∧ b < start + syls.length) := by
  simp only [find_best_phrase] at h
  by_cases hany : brks.any (fun b => start < b && b < start + syls.length) = true
  · rw [if_pos hany] at h
    exact absurd h (by simp)
  · intro b hb hcontra
    refine hany ?_
    refine List.any_eq_true.mpr ⟨b, hb, ?_⟩
    simp only [Bool.and_eq_true, decide_eq_true_eq]
    exact hcontra

/-- Each returned interval of `convert` is the image of a grid interval, and
the returned list is the image of a contiguous chain of grid intervals
ending at `n`. -/
theorem convertSpec (d : Dict) (seq : ChineseSequence) :
    ∃ pis : List PossibleInterval,
      convert d seq = pis.map PossibleInterval.toInterval ∧
        (∀ i ∈ pis, i ∈ find_intervals d seq) ∧
        ∃ s, chainFromPI s seq.syllables.length pis = true := by
  by_cases hempty : seq.syllables.isEmpty = true
  · refine ⟨[], ?_, by simp, seq.syllables.length, by simp [chainFromPI]⟩
    simp [convert, hempty]
  · have hconv :
        convert d seq =
          find_best_path seq.syllables.length (find_intervals d seq) := by
      simp [convert, hempty]
    rw [hconv]
    refine findBestPathSpec seq.syllables.length (find_intervals d seq) ?_
    intro i hi
    rcases memFindIntervals d seq i hi with ⟨h1, h2, _⟩
    omega

theorem chainMapPIrev :
    ∀ (l : List PossibleInterval) (s t : Nat),
      chainFromI s t (l.map PossibleInterval.toInterval) = true →
      chainFromPI s t l = true := by
  intro l
  induction l with
  | nil => intro s t hc; simpa [chainFromPI, chainFromI] using hc
  | cons a as ih =>
    intro s t hc
    simp only [List.map_cons, chainFromI, Bool.and_eq_true] at hc
    simp only [chainFromPI, Bool.and_eq_true]
    exact ⟨hc.1, ih a.end_ t hc.2⟩

theorem chainFilterPos :
    ∀ (l : List PossibleInterval) (s t : Nat), (∀ i ∈ l, i.start ≤ i.end_) →
      chainFromPI s t l = true →
      chainFromPI s t (l.filter fun i => decide (i.start < i.end_)) = true := by
  intro l
  induction l with
  | nil => intro s t _ hc; simpa using hc
  | cons a as ih =>
    intro s t hle hc
    simp only [chainFromPI, Bool.and_eq_true, beq_iff_eq] at hc
    have ha : a.start ≤ a.end_ := hle a (by simp)
    by_cases hpos : a.start < a.end_
    · have hd : decide (a.start < a.end_) = true := decide_eq_true hpos
      rw [List.filter_cons]
      simp only [hd, if_true, chainFromPI, Bool.and_eq_true, beq_iff_eq]
      exact ⟨hc.1, ih a.end_ t (fun j hj => hle j (by simp [hj])) hc.2⟩
    · have hz : a.end_ = s := by omega
      have hd : decide (a.start < a.end_) = false := decide_eq_false hpos
      rw [List.filter_cons]
      simp only [hd, Bool.false_eq_true, if_false]
      rw [← hz]
      exact ih a.end_ t (fun j hj => hle j (by simp [hj])) hc.2

/-! ### Claims C9, C1, C3, C8 -/

/-- C9: for every input length `n` and interval list whose entries index
within bounds (out-of-range entries panic in the Rust code), the list
returned by `find_best_path` is either empty (then `s = n`) or a contiguous
chain — each interval's end is the next one's start — whose last interval
ends at `n`, even when the chain does not start at `0`. -/
theorem claim_C9 (n : Nat) (l : List PossibleInterval)
    (hb : ∀ i ∈ l, i.start ≤ n ∧ i.end_ ≤ n) :
    ∃ s, chainFromI s n (find_best_path n l) = true := by
  rcases findBestPathSpec n l hb with ⟨pis, heq, _, s, hchain⟩
  exact ⟨s, heq ▸ chainMapPI pis s n hchain⟩

/-- C9 witness: the bound hypothesis and chain conclusion at the concrete
grid of `dHuge`/`seqHuge` (where the chain starts at 1, not 0). -/
theorem claim_C9_witness :
    (∀ i ∈ find_intervals dHuge seqHuge, i.start ≤ 2 ∧ i.end_ ≤ 2) ∧
      ∃ s, chainFromI s 2 (find_best_path 2 (find_intervals dHuge seqHuge)) = true :=
  ⟨by decide, claim_C9 2 (find_intervals dHuge seqHuge) (by decide)⟩

/-- C1 (amended): `convert(seq)` always returns the image of a contiguous
chain of candidate-grid intervals ending at `n` (empty allowed); even when a
well-formed cover of `[0, n)` exists in the grid, the chain need not start
at `0` (see the counterexample). -/
theorem claim_C1 (d : Dict) (seq : ChineseSequence) :
    ∃ pis : List PossibleInterval,
      convert d seq = pis.map PossibleInterval.toInterval ∧
        (∀ i ∈ pis, i ∈ find_intervals d seq) ∧
        ∃ s, chainFromPI s seq.syllables.length pis = true :=
  convertSpec d seq

/-- C1 counterexample: for `dHuge`/`seqHuge` a well-formed cover of `[0, 2)`
exists in the grid (the interval `(0, 2)`), yet `convert` returns
`[(1, 2)]`, which is not a contiguous cover of `[0, 2)` — its first interval
does not start at 0. -/
theorem claim_C1_counterexample :
    CoverExists (find_intervals dHuge seqHuge) 0 2 ∧
      convert dHuge seqHuge = [⟨1, 2, [11]⟩] ∧
      chainFromI 0 2 (convert dHuge seqHuge) = false :=
  ⟨⟨[⟨0, 2, ⟨[10, 11], 1⟩⟩], by decide, by decide⟩, by decide, by decide⟩

/-- C3 (amended): when no well-formed cover path from `0` to `n` exists in
the candidate grid, the list returned by `convert` does not cover `[0, n)`
(but it is not necessarily empty, and `highest[n]` is not necessarily the
default empty path — see the counterexample). -/
theorem claim_C3 (d : Dict) (seq : ChineseSequence)
    (h : ¬CoverExists (find_intervals d seq) 0 seq.syllables.length) :
    chainFromI 0 seq.syllables.length (convert d seq) = false := by
  cases hcov : chainFromI 0 seq.syllables.length (convert d seq) with
  | false => rfl
  | true =>
    exfalso
    rcases convertSpec d seq with ⟨pis, heq, hmem, _⟩
    rw [heq] at hcov
    have hchain : chainFromPI 0 seq.syllables.length pis = true :=
      chainMapPIrev pis 0 seq.syllables.length hcov
    have hle : ∀ i ∈ pis, i.start ≤ i.end_ := by
      intro i hi
      exact (memFindIntervals d seq i (hmem i hi)).1
    refine h ⟨pis.filter fun i => decide (i.start < i.end_), ?_, ?_⟩
    · intro i hi
      rcases List.mem_filter.mp hi with ⟨hip, hdec⟩
      exact ⟨hmem i hip, by simpa using hdec⟩
    · exact chainFilterPos pis 0 seq.syllables.length hle hchain

/-- C3 counterexample: with `dSel`/`seqSel` the selection `(0,1,[99])`
leaves the ranges `[0,1)` and `[0,2)` without candidates, so no cover
exists; yet `convert` returns the non-empty `[(1, 2)]` — `highest[n]` is not
the default empty path and the returned list is not the empty list. -/
theorem claim_C3_counterexample :
    ¬CoverExists (find_intervals dSel seqSel) 0 2 ∧
      convert dSel seqSel = [⟨1, 2, [11]⟩] := by
  constructor
  · rintro ⟨pis, hmem, hchain⟩
    have hg : find_intervals dSel seqSel = [⟨1, 2, ⟨[11], 1⟩⟩] := by decide
    cases pis with
    | nil => simp [chainFromPI] at hchain
    | cons a as =>
      have ha := (hmem a (by simp)).1
      rw [hg] at ha
      have ha2 : a = ⟨1, 2, ⟨[11], 1⟩⟩ := List.mem_singleton.mp ha
      rw [ha2] at hchain
      simp [chainFromPI] at hchain
  · decide

/-- C3 witness (for the amended theorem): at the concrete no-cover input,
the list returned by `convert` indeed fails to cover `[0, 2)`. -/
theorem claim_C3_witness :
    ¬CoverExists (find_intervals dSel seqSel) 0 2 ∧
      chainFromI 0 2 (convert dSel seqSel) = false := by
  have hnc : ¬CoverExists (find_intervals dSel seqSel) 0 2 := by
    rintro ⟨pis, hmem, hchain⟩
    have hg : find_intervals dSel seqSel = [⟨1, 2, ⟨[11], 1⟩⟩] := by decide
    cases pis with
    | nil => simp [chainFromPI] at hchain
    | cons a as =>
      have ha := (hmem a (by simp)).1
      rw [hg] at ha
      have ha2 : a = ⟨1, 2, ⟨[11], 1⟩⟩ := List.mem_singleton.mp ha
      rw [ha2] at hchain
      simp [chainFromPI] at hchain
  exact ⟨hnc, claim_C3 dSel seqSel hnc⟩

/-- C8: no interval returned by `convert` straddles a break position:
for every `b` in `seq.breaks` and every returned interval,
`¬(start < b < end)`. -/
theorem claim_C8 (d : Dict) (seq : ChineseSequence) (b : Nat)
    (hb : b ∈ seq.breaks) (i : Interval) (hi : i ∈ convert d seq) :
    ¬(i.start < b ∧ b < i.end_) := by
  rcases convertSpec d seq with ⟨pis, heq, hmem, _⟩
  rw [heq] at hi
  rcases List.mem_map.mp hi with ⟨pi, hpi, hieq⟩
  rcases memFindIntervals d seq pi (hmem pi hpi) with ⟨h1, h2, hsome⟩
  have hbr :=
    findBestPhraseBreaks d pi.start
      (sliceSyls seq.syllables pi.start pi.end_) seq.selections seq.breaks
      pi.phrase hsome b hb
  rw [sliceLen seq.syllables pi.start pi.end_ h1 h2] at hbr
  rw [← hieq]
  simp only [PossibleInterval.toInterval]
  intro hcontra
  exact hbr ⟨hcontra.1, by omega⟩

/-- C8 witness: with the break at 1 in `seqBrk`, the first returned interval
`(0, 1)` does not straddle it. -/
theorem claim_C8_witness :
    1 ∈ seqBrk.breaks ∧ (⟨0, 1, [10]⟩ : Interval) ∈ convert dBrk seqBrk ∧
      ¬((⟨0, 1, [10]⟩ : Interval).start < 1 ∧ 1 < (⟨0, 1, [10]⟩ : Interval).end_) :=
  ⟨by decide, by decide, claim_C8 dBrk seqBrk 1 (by decide) _ (by decide)⟩

/-! ### Claim C7 -/

/-- C7: indexed access into the alternatives is cyclic with period
`m = |alternatives|`: `convert_next(seq, k) = convert_next(seq, k + m)`
whenever the trimmed alternative set is non-empty. -/
theorem claim_C7 (d : Dict) (seq : ChineseSequence)
    (h : alternatives d seq ≠ []) (k : Nat) :
    convert_next d seq k = convert_next d seq (k + (alternatives d seq).length) := by
  simp only [convert_next]
  by_cases hempty : seq.syllables.isEmpty = true
  · simp [hempty]
  · have hne : (alternatives d seq).isEmpty = false := by
      cases halts : alternatives d seq with
      | nil => exact absurd halts h
      | cons a as => rfl
    simp only [hempty, Bool.false_eq_true, if_false, hne]
    rw [Nat.add_mod_right]

/-- C7 witness: the three-syllable fixture has two alternatives and cycling
by the period reproduces the same result. -/
theorem claim_C7_witness :
    alternatives dTie seqTie ≠ [] ∧
      convert_next dTie seqTie 0 =
        convert_next dTie seqTie (0 + (alternatives dTie seqTie).length) :=
  ⟨by decide, claim_C7 dTie seqTie (by decide) 0⟩

/-! ### Claim C10 -/

theorem findBestPhraseEmptySlice (d : Dict) (hd : d [] = []) (start : Nat)
    (sels : List Interval) (brks : List Nat) :
    find_best_phrase d start [] sels brks = none := by
  simp only [find_best_phrase, List.length_nil, Nat.add_zero]
  have hany : brks.any (fun b => start < b && b < start) = false := by
    refine List.any_eq_false.mpr ?_
    intro b _
    simp only [Bool.and_eq_true, decide_eq_true_eq, not_and]
    omega
  simp [hany, hd]

theorem fapFuelSucc (d : Dict) (seq : ChineseSequence) (fuel start target : Nat)
    (pre : List PossibleInterval) :
    find_all_paths_fuel d seq (fuel + 1) start target pre =
      if start = target then some [⟨pre⟩]
      else
        (List.range' start (target + 1 - start)).foldl
          (fun acc e =>
            match acc with
            | none => none
            | some res =>
              match
                find_best_phrase d start (sliceSyls seq.syllables start e)
                  seq.selections seq.breaks
              with
              | some ph =>
                match
                  find_all_paths_fuel d seq fuel e target (pre ++ [⟨start, e, ph⟩])
                with
                | some r => some (res ++ r)
                | none => none
              | none => some res)
          (some []) := rfl

theorem fapFuelSome (d : Dict) (seq : ChineseSequence) (hd : d [] = []) :
    ∀ (k start : Nat) (pre : List PossibleInterval) (target : Nat),
      start ≤ target → target - start ≤ k →
      (find_all_paths_fuel d seq (k + 1) start target pre).isSome = true := by
  intro k
  induction k with
  | zero =>
    intro start pre target h1 h2
    have : start = target := by omega
    subst this
    simp [find_all_paths_fuel]
  | succ m ih =>
    intro start pre target h1 h2
    by_cases heq : start = target
    · subst heq
      simp [find_all_paths_fuel]
    · have hlt : start < target := by omega
      simp only [find_all_paths_fuel, heq, if_false]
      refine foldlInv
        (fun acc : Option (List PossiblePath) => acc.isSome = true) _ _ _ ?_
        (by simp)
      intro acc e he hacc
      rcases Option.isSome_iff_exists.mp hacc with ⟨res, hres⟩
      subst hres
      have heb := List.mem_range'_1.mp he
      have he2 : e ≤ target := by omega
      cases hfbp :
          find_best_phrase d start (sliceSyls seq.syllables start e)
            seq.selections seq.breaks with
      | none => simp
      | some ph =>
        have hes : start < e := by
          rcases Nat.lt_or_ge start e with h | h
          · exact h
          · exfalso
            have hse : e = start := by omega
            subst hse
            have hsl : sliceSyls seq.syllables e e = [] := by
              simp [sliceSyls]
            rw [hsl] at hfbp
            rw [findBestPhraseEmptySlice d hd e seq.selections seq.breaks]
              at hfbp
            exact Option.noConfusion hfbp
        have hrec :=
          ih e (pre ++ [⟨start, e, ph⟩]) target he2 (by omega)
        rcases Option.isSome_iff_exists.mp hrec with ⟨r, hr⟩
        rw [fapFuelSucc] at hr
        simp only [hr]
        simp

/-- C10: when the dictionary yields no phrase for the empty syllable
sequence, `find_best_phrase` returns none on every empty sub-range, and
`find_all_paths` terminates for every sequence and every `start ≤ target`:
fuel `target − start + 1` (one unit per recursion level) already suffices,
so the recursion is well-founded exactly because the `end == start`
iteration of the `for end in start..=target` loop never recurses. -/
theorem claim_C10 (d : Dict) (seq : ChineseSequence) (hd : d [] = [])
    (start target : Nat) (hst : start ≤ target)
    (pre : List PossibleInterval) (sels : List Interval) (brks : List Nat) :
    find_best_phrase d start [] sels brks = none ∧
      (find_all_paths_fuel d seq (target + 1 - start) start target pre).isSome =
        true := by
  constructor
  · exact findBestPhraseEmptySlice d hd start sels brks
  · have h : target + 1 - start = (target - start) + 1 := by omega
    rw [h]
    exact fapFuelSome d seq hd (target - start) start pre target hst
      (Nat.le_refl _)

/-- C10 witness: the fixture dictionary maps the empty syllable list to no
phrase, and enumeration over the whole three-syllable range terminates. -/
theorem claim_C10_witness :
    dTie [] = [] ∧ (0 : Nat) ≤ 3 ∧
      find_best_phrase dTie 0 [] [] [] = none ∧
        (find_all_paths_fuel dTie seqTie (3 + 1 - 0) 0 3 []).isSome = true := by
  refine ⟨by decide, by decide, ?_, ?_⟩
  · exact (claim_C10 dTie seqTie (by decide) 0 3 (by decide) [] [] []).1
  · exact (claim_C10 dTie seqTie (by decide) 0 3 (by decide) [] [] []).2

/-! ### Claim C2 -/

/-- C2 (amended): `convert_next` sorts the surviving trimmed paths by score
ascending with the stable `Vec::sort` and reverses; the result is ordered by
score descending, and paths of equal score appear in the reverse of their
order in the trimmed enumeration — the code performs no path-lexicographic
tie-break. -/
theorem claim_C2 (d : Dict) (seq : ChineseSequence) :
    (alternatives d seq).Pairwise (fun p q => q.score ≤ p.score) ∧
      ∀ c : Int,
        (alternatives d seq).filter (fun p => decide (p.score = c)) =
          ((trim_paths
            ((find_all_paths_fuel d seq (seq.syllables.length + 1) 0
              seq.syllables.length []).getD [])).filter
                (fun p => decide (p.score = c))).reverse := by
  constructor
  · simp only [alternatives]
    rw [List.pairwise_reverse]
    have hp :=
      pairwiseInsSort pathScoreLe
        (by
          intro a b hab
          simp only [pathScoreLe] at hab ⊢
          rw [decide_eq_false_iff_not] at hab
          simp only [decide_eq_true_eq]
          omega)
        (by
          intro a b c hab hbc
          simp only [pathScoreLe, decide_eq_true_eq] at hab hbc ⊢
          omega)
        (trim_paths
          ((find_all_paths_fuel d seq (seq.syllables.length + 1) 0
            seq.syllables.length []).getD []))
    refine hp.imp ?_
    intro a b hab
    simpa [pathScoreLe] using hab
  · intro c
    simp only [alternatives]
    rw [List.filter_reverse, filterInsSortScore]

/-- C2 counterexample: on `dTie`/`seqTie` the two surviving paths have equal
score and the path-lexicographically smaller one (`pTieA`) comes last, so
equal-score alternatives are not ordered by the path-lexicographic order
named in the spec. -/
theorem claim_C2_counterexample :
    pTieA.score = pTieB.score ∧
      pathLexLt pTieA.intervals pTieB.intervals = true ∧
      alternatives dTie seqTie = [pTieB, pTieA] :=
  ⟨by decide, by decide, by decide⟩

end Chewing
